import Mathlib

/-!
Verification of the Neural Coder source-to-source patch engine of this
repository: the rule loader, the anchor detector, the below/above ordering
resolver and the line-based text patcher, together with the six shipped
declarative transformation rule documents embedded from the source tree
(one shipped file holds two documents).

The shipped rule files (their `transformation.location`, `transformation.content`
and `transformation.order` sections) are embedded verbatim from the source.
The engine itself is not part of the provided source tree, so its operations
are modelled from the specification, as indicated on each definition.
-/

namespace NeuralCoder

/-- Characters counting as indentation in a script line. -/
def isSpace (c : Char) : Bool := c == ' '

/-- Leading indentation of a line: its maximal prefix of spaces. -/
def indentOf (s : String) : String := String.mk (s.data.takeWhile isSpace)

/-- The line with its leading indentation removed. -/
def stripIndent (s : String) : String := String.mk (s.data.dropWhile isSpace)

/-- Prepend an indentation string to a line. -/
def withIndent (pre s : String) : String := String.mk (pre.data ++ s.data)

/-- Indentation string for `n` levels of four spaces each. -/
def levelIndent (n : Nat) : String := String.mk (List.replicate (4 * n) ' ')

/-- Does the character list `pat` occur contiguously inside the second list? -/
def containsSeq (pat : List Char) : List Char → Bool
  | [] => pat.isEmpty
  | c :: rest => pat.isPrefixOf (c :: rest) || containsSeq pat rest

/-- First index of the list satisfying `p`, if any. -/
def findIdxO {α : Type _} (p : α → Bool) : List α → Option Nat
  | [] => none
  | a :: l => if p a then some 0 else (findIdxO p l).map (fun n => n + 1)

/-- Semantic roles of anchor lines used by the shipped rule files:
model definition, dataloader definition, input definition and inference call. -/
inductive AnchorKind where
  | modelDef : AnchorKind
  | dataloaderDef : AnchorKind
  | inputDef : AnchorKind
  | inference : AnchorKind
deriving DecidableEq

/-- Modelled from the spec: the anchor detector's per-line heuristic pattern
match ("lightweight static heuristics, not a full parser"): a model /
dataloader / input definition line is an assignment to that name, and an
inference line is a call of the model. The engine's detector code is not in
the provided source tree; only the anchor-kind names appear in the shipped
rule files. -/
def matchesK : AnchorKind → String → Bool
  | .modelDef, s => "model = ".data.isPrefixOf (stripIndent s).data
  | .dataloaderDef, s => "dataloader = ".data.isPrefixOf (stripIndent s).data
  | .inputDef, s => "input = ".data.isPrefixOf (stripIndent s).data
  | .inference, s => containsSeq "model(".data s.data

/-- Modelled from the spec: the anchor detector scans the target script
line-by-line and maps an anchor kind to the first matching line; an absent
kind maps to `none`. -/
def detect (script : List String) (k : AnchorKind) : Option Nat :=
  findIdxO (matchesK k) script

/-- A content entry of a rule file: either a block of template text lines to
insert, or an indentation level (the numeric content paired with the
`indent_inference_line` location in the shipped benchmark rule file). -/
inductive Content where
  | block : List String → Content
  | level : Nat → Content
deriving DecidableEq

/-- A location entry of a rule file: insert below / above an anchor line,
insert below the later of two anchor lines (the two-element location entries
of the shipped rule files), or re-indent an anchor line. -/
inductive Loc where
  | below : AnchorKind → Loc
  | above : AnchorKind → Loc
  | belowBoth : AnchorKind → AnchorKind → Loc
  | indentAt : AnchorKind → Loc
deriving DecidableEq

/-- Anchor kinds referenced by a location entry. -/
def Loc.anchorKinds : Loc → List AnchorKind
  | .below k => [k]
  | .above k => [k]
  | .belowBoth k₁ k₂ => [k₁, k₂]
  | .indentAt k => [k]

/-- Is the location entry an indentation directive rather than an insertion? -/
def Loc.isIndentLoc : Loc → Bool
  | .indentAt _ => true
  | _ => false

/-- A transformation rule as used by the engine: its name, the names of rules
it is declared below / above, and its paired location and content entries. -/
structure Rule where
  name : String
  below : List String
  above : List String
  pairs : List (Loc × Content)
deriving DecidableEq

/-- Error kinds of the engine: a cycle in the ordering constraints, or a
malformed rule file. -/
inductive NCError where
  | OrderingError : NCError
  | ConfigError : NCError
deriving DecidableEq

/-- A content block indented to match its anchor line. -/
def indentBlock (anchor : String) (c : List String) : List String :=
  c.map (fun line => withIndent (indentOf anchor) line)

/-- Insert a content block directly below line `i`, indented to match it. -/
def insertAfterLine (script : List String) (i : Nat) (c : List String) : List String :=
  script.take (i + 1) ++ indentBlock (script.getD i "") c ++ script.drop (i + 1)

/-- Insert a content block directly above line `i`, indented to match it. -/
def insertBeforeLine (script : List String) (i : Nat) (c : List String) : List String :=
  script.take i ++ indentBlock (script.getD i "") c ++ script.drop i

/-- Modelled from the spec: apply a single (location, content) entry of a rule
to the script. Insertions are line-based and indented to match the anchor
line; a missing anchor means the entry is skipped silently; the
`indent_inference_line` directive re-indents the anchor line in place. -/
def applyOne (script : List String) : Loc × Content → List String
  | (Loc.below k, Content.block c) =>
    match detect script k with
    | none => script
    | some i => insertAfterLine script i c
  | (Loc.above k, Content.block c) =>
    match detect script k with
    | none => script
    | some i => insertBeforeLine script i c
  | (Loc.belowBoth k₁ k₂, Content.block c) =>
    match detect script k₁, detect script k₂ with
    | some i, some j => insertAfterLine script (max i j) c
    | _, _ => script
  | (Loc.indentAt k, Content.level n) =>
    match detect script k with
    | none => script
    | some i => script.set i (withIndent (levelIndent n) (script.getD i ""))
  | (_, _) => script

/-- Modelled from the spec: apply all (location, content) entries of one rule
to the script, in order, re-detecting anchors in the current text. -/
def applyRule (script : List String) (r : Rule) : List String :=
  r.pairs.foldl applyOne script

/-- Is rule `u` constrained to come before rule `v`: `v` declares itself below
`u`, or `u` declares itself above `v`? Rules never constrain themselves. -/
def isPredB (u v : Rule) : Bool :=
  !(u.name == v.name) && (v.below.contains u.name || u.above.contains v.name)

/-- Is `r` ready to be emitted: no rule still pending is constrained to come
before it? -/
def readyB (pending : List Rule) (r : Rule) : Bool :=
  pending.all (fun u => !(isPredB u r))

/-- Modelled from the spec: the ordering resolver's topological sort over the
active rule set. At each step the first still-pending rule (in declaration
order) all of whose predecessors have been emitted is emitted next; if no
rule is ready while some are pending, the constraints contain a cycle and
the resolver fails with `OrderingError`. -/
def topoGo : Nat → List Rule → List Rule → Except NCError (List Rule)
  | _, acc, [] => Except.ok acc.reverse
  | 0, _, _ :: _ => Except.error NCError.OrderingError
  | fuel + 1, acc, r₀ :: rest =>
    match (r₀ :: rest).find? (readyB (r₀ :: rest)) with
    | none => Except.error NCError.OrderingError
    | some r => topoGo fuel (r :: acc) ((r₀ :: rest).erase r)

/-- Modelled from the spec: the ordering resolver, resolving the below/above
constraints of the active rule set into a total order. -/
def order (active : List Rule) : Except NCError (List Rule) :=
  topoGo active.length [] active

/-- Modelled from the spec: the patch engine. The active rule set is first
resolved into a total order; a cycle aborts the whole patch with
`OrderingError`, otherwise the rules are applied to the script text in the
resolved order. -/
def run (rules : List Rule) (script : List String) : Except NCError (List String) :=
  match order rules with
  | Except.error e => Except.error e
  | Except.ok sorted => Except.ok (sorted.foldl applyRule script)

/-- Modelled from the spec: the patch engine at the text level. On any engine
error the target script text is returned unchanged. -/
def applyPatch (rules : List Rule) (script : List String) : List String :=
  match run rules script with
  | Except.error _ => script
  | Except.ok out => out

/-- A (possibly empty) chain of below/above constraints between two rules of
the active set: the directed-path relation of the ordering graph. -/
inductive PathStep (active : List Rule) : Rule → Rule → Prop where
  | single : ∀ {u v : Rule}, u ∈ active → v ∈ active → isPredB u v = true →
      PathStep active u v
  | cons : ∀ {u w v : Rule}, u ∈ active → isPredB u w = true →
      PathStep active w v → PathStep active u v

/-- The ordering graph of the active rule set contains a (directed) cycle. -/
def HasCycle (active : List Rule) : Prop := ∃ u, PathStep active u u

/-- A declarative rule file as read from disk, before validation: the
location and content fields may be missing. A location entry is a list of
anchor-kind names (a scalar entry is a one-element list), a content entry is
a block of template text lines. -/
structure RawRule where
  name : String
  location : Option (List (List String))
  content : Option (List (List String))
  below : List String
  above : List String
deriving DecidableEq

/-- A validated rule record produced by the rule loader. -/
structure LoadedRule where
  name : String
  location : List (List String)
  content : List (List String)
  below : List String
  above : List String
deriving DecidableEq

/-- Characters a content placeholder token is made of: capital letters and
underscores. -/
def phChar (c : Char) : Bool := ('A' ≤ c && c ≤ 'Z') || c == '_'

/-- Is the character a capital letter? -/
def isUpper (c : Char) : Bool := 'A' ≤ c && c ≤ 'Z'

/-- Accumulating scanner splitting a line into its maximal runs of
placeholder characters. -/
def runsAux : List Char → List Char → List (List Char)
  | cur, [] => if cur.isEmpty then [] else [cur.reverse]
  | cur, c :: rest =>
    if phChar c then runsAux (c :: cur) rest
    else if cur.isEmpty then runsAux [] rest
    else cur.reverse :: runsAux [] rest

/-- Maximal runs of capital letters and underscores occurring in a line. -/
def capsRuns (s : String) : List (List Char) := runsAux [] s.data

/-- Does a run have the shape of a placeholder token: starting and ending
with a capital letter, with an underscore inside? -/
def isPlaceholderShape (r : List Char) : Bool :=
  (match r.head? with
   | some c => isUpper c
   | none => false) &&
  (match r.getLast? with
   | some c => isUpper c
   | none => false) &&
  r.contains '_'

/-- Modelled from the spec: the known placeholder tokens that may appear in a
rule file's content blocks (the names the patcher substitutes with detected
script entities and benchmark parameters). -/
def knownTokens : List String :=
  ["MODEL_NAME", "DATALOADER_NAME", "INFERENCE_LINE", "INPUT_NAME",
   "ACCURACY_MODE", "NUM_BENCHMARK_ITERATION"]

/-- Placeholder-shaped tokens of a line that are outside the known token set. -/
def unknownPlaceholders (s : String) : List (List Char) :=
  (capsRuns s).filter
    (fun r => isPlaceholderShape r && !((knownTokens.map String.data).contains r))

/-- Does some line of some content block use a placeholder token outside the
known token set? -/
def contentHasUnknown (blocks : List (List String)) : Bool :=
  blocks.any (fun b => b.any (fun line => !(unknownPlaceholders line).isEmpty))

/-- Modelled from the spec: the rule loader. It parses a declarative rule
file into a rule record and fails with `ConfigError` when the required
location or content field is missing or a content placeholder does not match
a known token. -/
def loadRule (raw : RawRule) : Except NCError LoadedRule :=
  match raw.location, raw.content with
  | none, _ => Except.error NCError.ConfigError
  | some _, none => Except.error NCError.ConfigError
  | some loc, some cont =>
    if contentHasUnknown cont then Except.error NCError.ConfigError
    else Except.ok ⟨raw.name, loc, cont, raw.below, raw.above⟩

/-- Content block of the shipped Intel-Extension-for-TensorFlow
post-training-quantization rule file, embedded verbatim from the source. -/
def blockTFInc : List String :=
  ["[+] from neural_compressor.quantization import fit",
   "[+] from neural_compressor.config import PostTrainingQuantConfig",
   "[+] from neural_compressor.experimental import common",
   "[+] config = PostTrainingQuantConfig(backend='itex')",
   "[+] quantized_model = fit(MODEL_NAME, conf=config, calib_dataloader=DATALOADER_NAME, eval_func=eval_func)"]

/-- Content block of the shipped IPEX INT8 static-quantization rule file,
embedded verbatim from the source. -/
def blockIpexStatic : List String :=
  ["[+] if \"quantize\" not in str(type(MODEL_NAME)) and \"jit\" not in str(type(MODEL_NAME)):",
   "[+]     import torch",
   "[+]     import intel_extension_for_pytorch as ipex",
   "[+]     qconfig = ipex.quantization.default_static_qconfig",
   "[+]     MODEL_NAME = ipex.quantization.prepare(MODEL_NAME, qconfig, example_inputs=INPUT_NAME, inplace=False)",
   "[+]     with torch.no_grad():",
   "[+]         for i in range(10):",
   "[+]             INFERENCE_LINE",
   "[+]     MODEL_NAME = ipex.quantization.convert(MODEL_NAME)",
   "[+]     with torch.no_grad():",
   "[+]         INFERENCE_LINE",
   "[+]     MODEL_NAME.eval()"]

/-- Content block of the shipped channels-last rule file, embedded verbatim
from the source. -/
def blockChannelsLast : List String :=
  ["[+] import torch",
   "[+] with torch.no_grad():",
   "[+]     MODEL_NAME.eval()",
   "[+]     MODEL_NAME = MODEL_NAME.to(memory_format=torch.channels_last)"]

/-- Content block of the shipped mixed-precision BF16 rule file, embedded
verbatim from the source. -/
def blockIncBf16 : List String :=
  ["[+] import torch",
   "[+] torch.backends.quantized.engine = 'onednn'",
   "[+] from neural_compressor.experimental import MixedPrecision",
   "[+] converter = MixedPrecision()",
   "[+] converter.precisions = 'bf16'",
   "[+] converter.model = MODEL_NAME",
   "[+] MODEL_NAME = converter()",
   "[+] try:",
   "[+]     with torch.no_grad():",
   "[+]         MODEL_NAME = torch.jit.script(MODEL_NAME)",
   "[+]     MODEL_NAME = torch.jit.freeze(MODEL_NAME)",
   "[+] except:",
   "[+]     pass"]

/-- Content block of the shipped intel_extension_for_transformers dynamic
quantization rule document, embedded verbatim from the source. -/
def blockIetTransformers : List String :=
  ["[+] metric = metrics.Metric(name=\"eval_f1\", is_relative=True, criterion=0.01)",
   "[+] objective = objectives.performance",
   "[+] q_config = QuantizationConfig(approach=\"PostTrainingDynamic\", metrics=[metric], objectives=[objective])",
   "[+] MODEL_NAME = trainer.quantize(quant_config=q_config)"]

/-- First content block of the shipped benchmark rule file (inserted above
the inference line), embedded verbatim from the source. -/
def blockBenchA : List String :=
  ["[+] if not ACCURACY_MODE:",
   "[+]     try:",
   "[+]         time",
   "[+]         time_nc = time.time",
   "[+]     except:",
   "[+]         from time import time as time_nc",
   "[+]     count_iter_ = 0",
   "[+]     total_time_ = 0",
   "[+]     num_iter_ = NUM_BENCHMARK_ITERATION",
   "[+]     num_warmup_iter_ = 10",
   "[+]     list_batch_time_ = []",
   "[+]     for i_ in range(num_iter_):",
   "[+]         count_iter_ = count_iter_ + 1",
   "[+]         if count_iter_ > num_warmup_iter_:",
   "[+]             t1_ = time_nc()",
   "[+]         try:",
   "[+]             torch",
   "[+]             no_grad = torch.no_grad",
   "[+]         except:",
   "[+]             from torch import no_grad",
   "[+]         with no_grad():"]

/-- Second content block of the shipped benchmark rule file (inserted below
the inference line), embedded verbatim from the source. -/
def blockBenchB : List String :=
  ["[+]         if count_iter_ > num_warmup_iter_:",
   "[+]             t2_ = time_nc()",
   "[+]             batch_time_ = t2_ - t1_",
   "[+]             list_batch_time_.append(batch_time_)",
   "[+]             total_time_ = total_time_ + batch_time_",
   "[+]     print(\"Neural_Coder_Bench_IPS: \", round((num_iter_ - num_warmup_iter_) / total_time_, 3))",
   "[+]     print(\"Neural_Coder_Bench_MSPI: \", round(total_time_ / (num_iter_ - num_warmup_iter_) * 1000, 3))",
   "[+]     list_batch_time_.sort()",
   "[+]     p50_latency_ = list_batch_time_[int(len(list_batch_time_) * 0.50) - 1] * 1000",
   "[+]     p90_latency_ = list_batch_time_[int(len(list_batch_time_) * 0.90) - 1] * 1000",
   "[+]     p99_latency_ = list_batch_time_[int(len(list_batch_time_) * 0.99) - 1] * 1000",
   "[+]     print(\"Neural_Coder_Bench_P50: \", round(p50_latency_, 3))",
   "[+]     print(\"Neural_Coder_Bench_P90: \", round(p90_latency_, 3))",
   "[+]     print(\"Neural_Coder_Bench_P99: \", round(p99_latency_, 3))",
   "[+]     quit()",
   "[+] else:",
   "[+]     INFERENCE_LINE"]

/-- Raw form of the shipped Intel-Extension-for-TensorFlow quantization rule
file: location, content and order sections embedded from the source. -/
def rawTFInc : RawRule :=
  { name := "tensorflow_inc",
    location := some [["insert_below_dataloader_definition_line",
                       "insert_below_model_definition_line"]],
    content := some [blockTFInc],
    below := [],
    above := [] }

/-- Raw form of the shipped IPEX INT8 static-quantization rule file:
location, content and order sections embedded from the source. -/
def rawIpexStatic : RawRule :=
  { name := "pytorch_ipex_int8_static_quant",
    location := some [["insert_below_model_definition_line",
                       "insert_below_input_definition_line"]],
    content := some [blockIpexStatic],
    below := ["pytorch_channels_last"],
    above := ["pytorch_jit_script", "pytorch_jit_script_ofi",
              "pytorch_jit_trace", "pytorch_jit_trace_ofi"] }

/-- Raw form of the shipped channels-last rule file: location, content and
order sections embedded from the source. -/
def rawChannelsLast : RawRule :=
  { name := "pytorch_channels_last",
    location := some [["insert_below_model_definition_line"]],
    content := some [blockChannelsLast],
    below := ["pytorch_inc_static_quant_fx", "pytorch_inc_static_quant_ipex",
              "pytorch_inc_dynamic_quant"],
    above := ["pytorch_ipex_fp32", "pytorch_ipex_bf16",
              "pytorch_ipex_int8_static_quant", "pytorch_ipex_int8_dynamic_quant",
              "pytorch_jit_script", "pytorch_jit_script_ofi",
              "pytorch_jit_trace", "pytorch_jit_trace_ofi"] }

/-- Raw form of the shipped mixed-precision BF16 rule file: location,
content and order sections embedded from the source. -/
def rawIncBf16 : RawRule :=
  { name := "pytorch_inc_bf16",
    location := some [["insert_below_model_definition_line"]],
    content := some [blockIncBf16],
    below := [],
    above := ["pytorch_jit_script", "pytorch_jit_script_ofi",
              "pytorch_jit_trace", "pytorch_jit_trace_ofi",
              "pytorch_channels_last"] }

/-- Raw form of the shipped intel_extension_for_transformers rule document:
location, content and order sections embedded from the source. -/
def rawIetTransformers : RawRule :=
  { name := "intel_extension_for_transformers",
    location := some [["insert_below_dataloader_definition_line",
                       "insert_below_model_definition_line"]],
    content := some [blockIetTransformers],
    below := [],
    above := ["pytorch_jit_script", "pytorch_jit_script_ofi",
              "pytorch_jit_trace", "pytorch_jit_trace_ofi",
              "pytorch_channels_last"] }

/-- Raw form of the shipped benchmark rule file: location, content and order
sections embedded from the source. -/
def rawBenchmark : RawRule :=
  { name := "pytorch_benchmark",
    location := some [["insert_above_inference_line"],
                      ["insert_below_inference_line"],
                      ["indent_inference_line"]],
    content := some [blockBenchA, blockBenchB, ["3"]],
    below := [],
    above := [] }

/-- The six shipped rule documents of the source tree (five files; the
first file holds both the itex quantization and the IPEX static-quant
documents), in raw form and in source order. -/
def shippedRaws : List RawRule :=
  [rawTFInc, rawIpexStatic, rawChannelsLast, rawIncBf16, rawIetTransformers,
   rawBenchmark]

/-- The shipped Intel-Extension-for-TensorFlow quantization rule in engine
form. -/
def srTFInc : Rule :=
  { name := "tensorflow_inc",
    below := [],
    above := [],
    pairs := [(Loc.belowBoth AnchorKind.dataloaderDef AnchorKind.modelDef,
               Content.block blockTFInc)] }

/-- The shipped IPEX INT8 static-quantization rule in engine form. -/
def srIpexStatic : Rule :=
  { name := "pytorch_ipex_int8_static_quant",
    below := ["pytorch_channels_last"],
    above := ["pytorch_jit_script", "pytorch_jit_script_ofi",
              "pytorch_jit_trace", "pytorch_jit_trace_ofi"],
    pairs := [(Loc.belowBoth AnchorKind.modelDef AnchorKind.inputDef,
               Content.block blockIpexStatic)] }

/-- The shipped channels-last rule in engine form. -/
def srChannelsLast : Rule :=
  { name := "pytorch_channels_last",
    below := ["pytorch_inc_static_quant_fx", "pytorch_inc_static_quant_ipex",
              "pytorch_inc_dynamic_quant"],
    above := ["pytorch_ipex_fp32", "pytorch_ipex_bf16",
              "pytorch_ipex_int8_static_quant", "pytorch_ipex_int8_dynamic_quant",
              "pytorch_jit_script", "pytorch_jit_script_ofi",
              "pytorch_jit_trace", "pytorch_jit_trace_ofi"],
    pairs := [(Loc.below AnchorKind.modelDef, Content.block blockChannelsLast)] }

/-- The shipped mixed-precision BF16 rule in engine form. -/
def srIncBf16 : Rule :=
  { name := "pytorch_inc_bf16",
    below := [],
    above := ["pytorch_jit_script", "pytorch_jit_script_ofi",
              "pytorch_jit_trace", "pytorch_jit_trace_ofi",
              "pytorch_channels_last"],
    pairs := [(Loc.below AnchorKind.modelDef, Content.block blockIncBf16)] }

/-- The shipped intel_extension_for_transformers dynamic quantization rule
in engine form. -/
def srIetTransformers : Rule :=
  { name := "intel_extension_for_transformers",
    below := [],
    above := ["pytorch_jit_script", "pytorch_jit_script_ofi",
              "pytorch_jit_trace", "pytorch_jit_trace_ofi",
              "pytorch_channels_last"],
    pairs := [(Loc.belowBoth AnchorKind.dataloaderDef AnchorKind.modelDef,
               Content.block blockIetTransformers)] }

/-- The shipped benchmark rule in engine form, including its
`indent_inference_line` directive with indentation level 3. -/
def srBenchmark : Rule :=
  { name := "pytorch_benchmark",
    below := [],
    above := [],
    pairs := [(Loc.above AnchorKind.inference, Content.block blockBenchA),
              (Loc.below AnchorKind.inference, Content.block blockBenchB),
              (Loc.indentAt AnchorKind.inference, Content.level 3)] }

/-- The six shipped rules in engine form, in their shipped declaration
order. -/
def shippedRules : List Rule :=
  [srTFInc, srIpexStatic, srChannelsLast, srIncBf16, srIetTransformers,
   srBenchmark]

/-- Does rule `r` name rule `s` in its order constraints? -/
def namesOther (r s : Rule) : Bool :=
  r.below.contains s.name || r.above.contains s.name

/-- Mutual consistency of the order declarations of two rules: when each
names the other, one declares itself below the other exactly when that other
declares itself above the first. -/
def mutualConsistent (r s : Rule) : Bool :=
  !(namesOther r s && namesOther s r) ||
    ((r.below.contains s.name == s.above.contains r.name) &&
     (r.above.contains s.name == s.below.contains r.name))

/-- Decidable equality of engine results, so that resolver outputs can be
evaluated on concrete rule sets. -/
instance {ε α : Type _} [DecidableEq ε] [DecidableEq α] :
    DecidableEq (Except ε α) := fun a b =>
  match a, b with
  | Except.error e, Except.error f =>
    if h : e = f then isTrue (by rw [h])
    else isFalse (fun hc => h (Except.error.inj hc))
  | Except.error _, Except.ok _ => isFalse (fun hc => Except.noConfusion hc)
  | Except.ok _, Except.error _ => isFalse (fun hc => Except.noConfusion hc)
  | Except.ok x, Except.ok y =>
    if h : x = y then isTrue (by rw [h])
    else isFalse (fun hc => h (Except.ok.inj hc))

/-- Does a rule consist of insertion entries only, with no
`indent_inference_line` directive? -/
def ruleNoIndent (r : Rule) : Bool :=
  r.pairs.all (fun pr => !(pr.1.isIndentLoc))

/-- Rule A of the specification's three-rule ordering example: declared above
rule B. -/
def ruleA : Rule := { name := "A", below := [], above := ["B"], pairs := [] }

/-- Rule B of the specification's three-rule ordering example: declared above
rule C. -/
def ruleB : Rule := { name := "B", below := [], above := ["C"], pairs := [] }

/-- Rule C of the specification's three-rule ordering example: no
declarations of its own. -/
def ruleC : Rule := { name := "C", below := [], above := [], pairs := [] }

/-- The specification's three-rule example set in the declaration order
A, B, C. -/
def abcRules : List Rule := [ruleA, ruleB, ruleC]

/-- Rank function witnessing that the three-rule example's ordering graph is
acyclic. -/
def abcRank (s : String) : Nat :=
  if s = "A" then 0 else if s = "B" then 1 else 2

/-- All six declaration orders of the three example rules A, B, C. -/
def abcOrders : List (List Rule) :=
  [[ruleA, ruleB, ruleC], [ruleA, ruleC, ruleB], [ruleB, ruleA, ruleC],
   [ruleB, ruleC, ruleA], [ruleC, ruleA, ruleB], [ruleC, ruleB, ruleA]]

/-- Unconstrained rule P of the declaration-order counterexample set. -/
def ruleP : Rule := { name := "P", below := [], above := [], pairs := [] }

/-- Unconstrained rule Q of the declaration-order counterexample set. -/
def ruleQ : Rule := { name := "Q", below := [], above := [], pairs := [] }

/-- Rule R of the declaration-order counterexample set: declared above
rule P. -/
def ruleR : Rule := { name := "R", below := [], above := ["P"], pairs := [] }

/-- The declaration-order counterexample set, declared in the order P, Q, R:
the only constraint is that R must come before P. -/
def pqrRules : List Rule := [ruleP, ruleQ, ruleR]

/-- A one-insertion demonstration rule: insert an import line below the
model definition line. -/
def demoInsertRule : Rule :=
  { name := "demo_insert", below := [], above := [],
    pairs := [(Loc.below AnchorKind.modelDef, Content.block ["import torch"])] }

/-- A one-line script containing a model definition line. -/
def demoModelScript : List String := ["model = Net()"]

/-- First rule of a two-rule ordering cycle: declared above the second. -/
def cycRuleA : Rule :=
  { name := "cycle_a", below := [], above := ["cycle_b"], pairs := [] }

/-- Second rule of a two-rule ordering cycle: declared above the first. -/
def cycRuleB : Rule :=
  { name := "cycle_b", below := [], above := ["cycle_a"], pairs := [] }

/-- A demonstration rule anchored at the dataloader definition line. -/
def skipRule : Rule :=
  { name := "demo_skip", below := [], above := [],
    pairs := [(Loc.below AnchorKind.dataloaderDef, Content.block ["x = 0"])] }

/-- A one-line script containing no anchor line of any kind. -/
def plainScript : List String := ["y = 1"]

/-- A one-line script consisting of a single inference line. -/
def inferScript : List String := ["output = model(input)"]

/-- A two-line script containing a model definition line and an input
definition line. -/
def modelInputScript : List String := ["model = Net()", "input = load()"]

/-- A script in which two lines match the model-definition heuristic. -/
def twoModelScript : List String := ["x = 1", "model = Net()", "model = Other()"]

/-!
Theorems. First the generic lemmas about the anchor detector, the text
patcher and the ordering resolver, then one theorem (with witness or
counterexample) for each verified property.
-/

theorem findIdxO_spec {α : Type _} (p : α → Bool) :
    ∀ (l : List α) (i : Nat), findIdxO p l = some i →
      (∃ a, l.get? i = some a ∧ p a = true) ∧
        ∀ j, j < i → ∀ b, l.get? j = some b → p b = false := by
  intro l
  induction l with
  | nil => intro i h; simp [findIdxO] at h
  | cons a t ih =>
    intro i h
    by_cases hp : p a = true
    · have h0 : i = 0 := by
        simp [findIdxO, hp] at h
        omega
      subst h0
      exact ⟨⟨a, rfl, hp⟩, fun j hj => absurd hj (Nat.not_lt_zero j)⟩
    · simp only [findIdxO, hp, if_false, Bool.false_eq_true] at h
      rcases Option.map_eq_some'.1 h with ⟨n, hn, hni⟩
      subst hni
      obtain ⟨⟨b, hb, hpb⟩, hmin⟩ := ih n hn
      refine ⟨⟨b, by simpa using hb, hpb⟩, ?_⟩
      intro j hj c hc
      cases j with
      | zero =>
        have : a = c := by simpa using hc
        subst this
        simpa using hp
      | succ m =>
        exact hmin m (by omega) c (by simpa using hc)

theorem detect_lt_length {script : List String} {k : AnchorKind} {i : Nat}
    (h : detect script k = some i) : i < script.length := by
  obtain ⟨⟨a, ha, _⟩, _⟩ := findIdxO_spec (matchesK k) script i h
  exact (List.get?_eq_some.1 ha).1

/-- C3: applying the patch engine with an empty rule set to any script
returns the original script text unchanged. -/
theorem run_empty_rules (script : List String) : run [] script = Except.ok script := rfl

/-- C7: when the anchor detector maps an anchor kind to a line of the target
script, that line matches the kind's heuristic and no earlier line does, so
the detector picks the first matching line and maps each kind to at most one
line. -/
theorem detect_first_match (script : List String) (k : AnchorKind) (i : Nat)
    (h : detect script k = some i) :
    (∃ line, script.get? i = some line ∧ matchesK k line = true) ∧
      ∀ j, j < i → ∀ line, script.get? j = some line → matchesK k line = false :=
  findIdxO_spec (matchesK k) script i h

/-- Witness for the first-match property: in a script whose second and third
lines both match the model-definition heuristic, the detector picks the
second line, and the line before it does not match. -/
theorem detect_first_match_witness :
    (∃ line, twoModelScript.get? 1 = some line ∧
        matchesK AnchorKind.modelDef line = true) ∧
      ∀ j, j < 1 → ∀ line, twoModelScript.get? j = some line →
        matchesK AnchorKind.modelDef line = false :=
  detect_first_match twoModelScript AnchorKind.modelDef 1 (by decide)

/-- C9: re-applying a non-empty rule set to an already-patched script is not
idempotent: for the demonstration rule set and script, patching the patched
output differs from patching once. -/
theorem reapply_not_idempotent :
    applyPatch [demoInsertRule] (applyPatch [demoInsertRule] demoModelScript) ≠
        applyPatch [demoInsertRule] demoModelScript ∧
      ([demoInsertRule] : List Rule) ≠ [] := by
  decide

theorem sublist_insertAfterLine (script : List String) (i : Nat) (c : List String) :
    script.Sublist (insertAfterLine script i c) := by
  unfold insertAfterLine
  rw [List.append_assoc]
  conv_lhs => rw [← List.take_append_drop (i + 1) script]
  exact (List.Sublist.refl _).append (List.sublist_append_right _ _)

theorem sublist_insertBeforeLine (script : List String) (i : Nat) (c : List String) :
    script.Sublist (insertBeforeLine script i c) := by
  unfold insertBeforeLine
  rw [List.append_assoc]
  conv_lhs => rw [← List.take_append_drop i script]
  exact (List.Sublist.refl _).append (List.sublist_append_right _ _)

theorem dropWhile_replicate_append (m : Nat) (l : List Char) :
    (List.replicate m ' ' ++ l).dropWhile isSpace = l.dropWhile isSpace := by
  induction m with
  | zero => simp
  | succ n ih => simp [List.replicate_succ, isSpace, ih]

theorem stripIndent_withIndent_level (n : Nat) (s : String) :
    stripIndent (withIndent (levelIndent n) s) = stripIndent s := by
  simp [stripIndent, withIndent, levelIndent, dropWhile_replicate_append]

theorem set_map_getD {α β : Type _} (f : α → β) (d : α) :
    ∀ (l : List α) (i : Nat), i < l.length →
      (l.map f).set i (f (l.getD i d)) = l.map f := by
  intro l
  induction l with
  | nil => intro i h; simp at h
  | cons a t ih =>
    intro i h
    cases i with
    | zero => simp
    | succ m =>
      have hm : m < t.length := by simpa using h
      rw [List.getD_cons_succ, List.map_cons, List.set_cons_succ, ih m hm]

theorem applyOne_strip_sublist (script : List String) (pr : Loc × Content) :
    (script.map stripIndent).Sublist ((applyOne script pr).map stripIndent) := by
  rcases pr with ⟨loc, cont⟩
  cases loc with
  | below k =>
    cases cont with
    | block c =>
      cases hd : detect script k with
      | none => simp [applyOne, hd]
      | some i =>
        simp only [applyOne, hd]
        exact (sublist_insertAfterLine script i c).map stripIndent
    | level n => simp [applyOne]
  | above k =>
    cases cont with
    | block c =>
      cases hd : detect script k with
      | none => simp [applyOne, hd]
      | some i =>
        simp only [applyOne, hd]
        exact (sublist_insertBeforeLine script i c).map stripIndent
    | level n => simp [applyOne]
  | belowBoth k₁ k₂ =>
    cases cont with
    | block c =>
      cases hd1 : detect script k₁ with
      | none => simp [applyOne, hd1]
      | some i =>
        cases hd2 : detect script k₂ with
        | none => simp [applyOne, hd1, hd2]
        | some j =>
          simp only [applyOne, hd1, hd2]
          exact (sublist_insertAfterLine script (max i j) c).map stripIndent
    | level n => simp [applyOne]
  | indentAt k =>
    cases cont with
    | block c => simp [applyOne]
    | level n =>
      cases hd : detect script k with
      | none => simp [applyOne, hd]
      | some i =>
        simp only [applyOne, hd]
        rw [List.map_set, stripIndent_withIndent_level,
          set_map_getD stripIndent "" script i (detect_lt_length hd)]

theorem applyOne_sublist_of_insertion (script : List String) (pr : Loc × Content)
    (h : pr.1.isIndentLoc = false) : script.Sublist (applyOne script pr) := by
  rcases pr with ⟨loc, cont⟩
  cases loc with
  | below k =>
    cases cont with
    | block c =>
      cases hd : detect script k with
      | none => simp [applyOne, hd]
      | some i =>
        simp only [applyOne, hd]
        exact sublist_insertAfterLine script i c
    | level n => simp [applyOne]
  | above k =>
    cases cont with
    | block c =>
      cases hd : detect script k with
      | none => simp [applyOne, hd]
      | some i =>
        simp only [applyOne, hd]
        exact sublist_insertBeforeLine script i c
    | level n => simp [applyOne]
  | belowBoth k₁ k₂ =>
    cases cont with
    | block c =>
      cases hd1 : detect script k₁ with
      | none => simp [applyOne, hd1]
      | some i =>
        cases hd2 : detect script k₂ with
        | none => simp [applyOne, hd1, hd2]
        | some j =>
          simp only [applyOne, hd1, hd2]
          exact sublist_insertAfterLine script (max i j) c
    | level n => simp [applyOne]
  | indentAt k => simp [Loc.isIndentLoc] at h

theorem foldl_applyOne_strip_sublist (ps : List (Loc × Content)) :
    ∀ script : List String,
      (script.map stripIndent).Sublist ((ps.foldl applyOne script).map stripIndent) := by
  induction ps with
  | nil => intro script; exact List.Sublist.refl _
  | cons pr t ih =>
    intro script
    exact (applyOne_strip_sublist script pr).trans (ih (applyOne script pr))

theorem applyRules_strip_sublist (L : List Rule) :
    ∀ script : List String,
      (script.map stripIndent).Sublist ((L.foldl applyRule script).map stripIndent) := by
  induction L with
  | nil => intro script; exact List.Sublist.refl _
  | cons r t ih =>
    intro script
    exact (foldl_applyOne_strip_sublist r.pairs script).trans (ih (applyRule script r))

theorem foldl_applyOne_sublist_of_noIndent (ps : List (Loc × Content)) :
    ∀ script : List String, (ps.all fun pr => !(pr.1.isIndentLoc)) = true →
      script.Sublist (ps.foldl applyOne script) := by
  induction ps with
  | nil => intro script _; exact List.Sublist.refl _
  | cons pr t ih =>
    intro script h
    rw [List.all_cons, Bool.and_eq_true] at h
    have h1 : pr.1.isIndentLoc = false := by
      rcases h with ⟨h1, _⟩
      cases hv : pr.1.isIndentLoc
      · rfl
      · rw [hv] at h1; simp at h1
    exact (applyOne_sublist_of_insertion script pr h1).trans (ih _ h.2)

theorem applyRules_sublist_of_noIndent (L : List Rule) :
    ∀ script : List String, (L.all ruleNoIndent) = true →
      script.Sublist (L.foldl applyRule script) := by
  induction L with
  | nil => intro script _; exact List.Sublist.refl _
  | cons r t ih =>
    intro script h
    rw [List.all_cons, Bool.and_eq_true] at h
    exact (foldl_applyOne_sublist_of_noIndent r.pairs script h.1).trans
      (ih (applyRule script r) h.2)

theorem applyOne_skip (script : List String) (pr : Loc × Content)
    (h : ∀ k ∈ pr.1.anchorKinds, detect script k = none) :
    applyOne script pr = script := by
  rcases pr with ⟨loc, cont⟩
  cases loc with
  | below k =>
    have hk : detect script k = none := h k (by simp [Loc.anchorKinds])
    cases cont with
    | block c => simp [applyOne, hk]
    | level n => simp [applyOne]
  | above k =>
    have hk : detect script k = none := h k (by simp [Loc.anchorKinds])
    cases cont with
    | block c => simp [applyOne, hk]
    | level n => simp [applyOne]
  | belowBoth k₁ k₂ =>
    have hk : detect script k₁ = none := h k₁ (by simp [Loc.anchorKinds])
    cases cont with
    | block c => simp [applyOne, hk]
    | level n => simp [applyOne]
  | indentAt k =>
    have hk : detect script k = none := h k (by simp [Loc.anchorKinds])
    cases cont with
    | block c => simp [applyOne]
    | level n => simp [applyOne, hk]

theorem foldl_applyOne_skip (ps : List (Loc × Content)) (script : List String)
    (h : ∀ pr ∈ ps, ∀ k ∈ pr.1.anchorKinds, detect script k = none) :
    ps.foldl applyOne script = script := by
  induction ps with
  | nil => rfl
  | cons pr t ih =>
    have h0 : applyOne script pr = script :=
      applyOne_skip script pr (h pr (by simp))
    rw [List.foldl_cons, h0]
    exact ih (fun q hq => h q (by simp [hq]))

theorem topoGo_subset :
    ∀ (fuel : Nat) (acc pending L : List Rule),
      topoGo fuel acc pending = Except.ok L →
      ∀ r ∈ L, r ∈ acc ∨ r ∈ pending := by
  intro fuel
  induction fuel with
  | zero =>
    intro acc pending L h r hr
    cases pending with
    | nil =>
      simp only [topoGo, Except.ok.injEq] at h
      subst h
      exact Or.inl (by simpa using hr)
    | cons r₀ rest => simp [topoGo] at h
  | succ fuel ih =>
    intro acc pending L h r hr
    cases pending with
    | nil =>
      simp only [topoGo, Except.ok.injEq] at h
      subst h
      exact Or.inl (by simpa using hr)
    | cons r₀ rest =>
      rw [topoGo] at h
      cases hfind : (r₀ :: rest).find? (readyB (r₀ :: rest)) with
      | none => rw [hfind] at h; simp at h
      | some r' =>
        rw [hfind] at h
        rcases ih (r' :: acc) ((r₀ :: rest).erase r') L h r hr with hacc | herase
        · rcases List.mem_cons.1 hacc with rfl | hacc'
          · exact Or.inr (List.mem_of_find?_eq_some hfind)
          · exact Or.inl hacc'
        · exact Or.inr (List.mem_of_mem_erase herase)

theorem order_subset {active L : List Rule} (h : order active = Except.ok L) :
    ∀ r ∈ L, r ∈ active := by
  intro r hr
  rcases topoGo_subset active.length [] active L h r hr with hacc | hp
  · simp at hacc
  · exact hp

theorem mem_insertAfterLine {script : List String} {i : Nat} {c : List String}
    {line : String} (h : line ∈ insertAfterLine script i c) :
    line ∈ script ∨ ∃ c₀ ∈ c, line = withIndent (indentOf (script.getD i "")) c₀ := by
  unfold insertAfterLine indentBlock at h
  rcases List.mem_append.1 h with hl | hl
  · rcases List.mem_append.1 hl with hl' | hl'
    · exact Or.inl (List.take_subset _ _ hl')
    · rcases List.mem_map.1 hl' with ⟨c₀, hc₀, rfl⟩
      exact Or.inr ⟨c₀, hc₀, rfl⟩
  · exact Or.inl (List.drop_subset _ _ hl)

theorem mem_insertBeforeLine {script : List String} {i : Nat} {c : List String}
    {line : String} (h : line ∈ insertBeforeLine script i c) :
    line ∈ script ∨ ∃ c₀ ∈ c, line = withIndent (indentOf (script.getD i "")) c₀ := by
  unfold insertBeforeLine indentBlock at h
  rcases List.mem_append.1 h with hl | hl
  · rcases List.mem_append.1 hl with hl' | hl'
    · exact Or.inl (List.take_subset _ _ hl')
    · rcases List.mem_map.1 hl' with ⟨c₀, hc₀, rfl⟩
      exact Or.inr ⟨c₀, hc₀, rfl⟩
  · exact Or.inl (List.drop_subset _ _ hl)

theorem dropWhile_append_of_forall {pre : List Char} (l : List Char)
    (h : ∀ c ∈ pre, isSpace c = true) :
    (pre ++ l).dropWhile isSpace = l.dropWhile isSpace := by
  induction pre with
  | nil => rfl
  | cons c t ih =>
    have hc : isSpace c = true := h c (List.mem_cons_self c t)
    rw [List.cons_append, List.dropWhile_cons, if_pos hc]
    exact ih (fun d hd => h d (List.mem_cons_of_mem c hd))

theorem stripIndent_withIndent_indentOf (anchor s : String) :
    stripIndent (withIndent (indentOf anchor) s) = stripIndent s := by
  simp only [stripIndent, withIndent, indentOf]
  exact congrArg String.mk
    (dropWhile_append_of_forall s.data (fun c hc => List.mem_takeWhile_imp hc))

theorem applyOne_line_origin (script : List String) (pr : Loc × Content) :
    ∀ line ∈ applyOne script pr,
      (∃ orig ∈ script, stripIndent line = stripIndent orig) ∨
        ∃ c, pr.2 = Content.block c ∧
          ∃ c₀ ∈ c, stripIndent line = stripIndent c₀ := by
  rcases pr with ⟨loc, cont⟩
  cases loc with
  | below k =>
    cases cont with
    | block c =>
      cases hd : detect script k with
      | none =>
        simp only [applyOne, hd]
        intro line hline
        exact Or.inl ⟨line, hline, rfl⟩
      | some i =>
        simp only [applyOne, hd]
        intro line hline
        rcases mem_insertAfterLine hline with hl | ⟨c₀, hc₀, rfl⟩
        · exact Or.inl ⟨line, hl, rfl⟩
        · exact Or.inr ⟨c, rfl, c₀, hc₀, stripIndent_withIndent_indentOf _ _⟩
    | level n =>
      simp only [applyOne]
      intro line hline
      exact Or.inl ⟨line, hline, rfl⟩
  | above k =>
    cases cont with
    | block c =>
      cases hd : detect script k with
      | none =>
        simp only [applyOne, hd]
        intro line hline
        exact Or.inl ⟨line, hline, rfl⟩
      | some i =>
        simp only [applyOne, hd]
        intro line hline
        rcases mem_insertBeforeLine hline with hl | ⟨c₀, hc₀, rfl⟩
        · exact Or.inl ⟨line, hl, rfl⟩
        · exact Or.inr ⟨c, rfl, c₀, hc₀, stripIndent_withIndent_indentOf _ _⟩
    | level n =>
      simp only [applyOne]
      intro line hline
      exact Or.inl ⟨line, hline, rfl⟩
  | belowBoth k₁ k₂ =>
    cases cont with
    | block c =>
      cases hd1 : detect script k₁ with
      | none =>
        simp only [applyOne, hd1]
        intro line hline
        exact Or.inl ⟨line, hline, rfl⟩
      | some i =>
        cases hd2 : detect script k₂ with
        | none =>
          simp only [applyOne, hd1, hd2]
          intro line hline
          exact Or.inl ⟨line, hline, rfl⟩
        | some j =>
          simp only [applyOne, hd1, hd2]
          intro line hline
          rcases mem_insertAfterLine hline with hl | ⟨c₀, hc₀, rfl⟩
          · exact Or.inl ⟨line, hl, rfl⟩
          · exact Or.inr ⟨c, rfl, c₀, hc₀, stripIndent_withIndent_indentOf _ _⟩
    | level n =>
      simp only [applyOne]
      intro line hline
      exact Or.inl ⟨line, hline, rfl⟩
  | indentAt k =>
    cases cont with
    | block c =>
      simp only [applyOne]
      intro line hline
      exact Or.inl ⟨line, hline, rfl⟩
    | level n =>
      cases hd : detect script k with
      | none =>
        simp only [applyOne, hd]
        intro line hline
        exact Or.inl ⟨line, hline, rfl⟩
      | some i =>
        simp only [applyOne, hd]
        intro line hline
        rcases List.mem_or_eq_of_mem_set hline with hl | rfl
        · exact Or.inl ⟨line, hl, rfl⟩
        · have hi : i < script.length := detect_lt_length hd
          refine Or.inl ⟨script.getD i "", ?_, ?_⟩
          · rw [List.getD_eq_getElem script "" hi]
            exact List.getElem_mem hi
          · exact stripIndent_withIndent_level n _

theorem foldl_applyOne_line_origin (ps : List (Loc × Content)) :
    ∀ (script : List String) (line : String), line ∈ ps.foldl applyOne script →
      (∃ orig ∈ script, stripIndent line = stripIndent orig) ∨
        ∃ pr ∈ ps, ∃ c, pr.2 = Content.block c ∧
          ∃ c₀ ∈ c, stripIndent line = stripIndent c₀ := by
  induction ps with
  | nil =>
    intro script line h
    exact Or.inl ⟨line, h, rfl⟩
  | cons pr t ih =>
    intro script line h
    rcases ih (applyOne script pr) line h with ⟨orig, horig, heq⟩ | ⟨q, hq, rest⟩
    · rcases applyOne_line_origin script pr orig horig with
        ⟨o₂, ho₂, he₂⟩ | ⟨c, hc, c₀, hc₀, he₂⟩
      · exact Or.inl ⟨o₂, ho₂, heq.trans he₂⟩
      · exact Or.inr ⟨pr, List.mem_cons_self pr t, c, hc, c₀, hc₀, heq.trans he₂⟩
    · exact Or.inr ⟨q, List.mem_cons_of_mem pr hq, rest⟩

theorem applyRules_line_origin (L : List Rule) :
    ∀ (script : List String) (line : String), line ∈ L.foldl applyRule script →
      (∃ orig ∈ script, stripIndent line = stripIndent orig) ∨
        ∃ r ∈ L, ∃ pr ∈ r.pairs, ∃ c, pr.2 = Content.block c ∧
          ∃ c₀ ∈ c, stripIndent line = stripIndent c₀ := by
  induction L with
  | nil =>
    intro script line h
    exact Or.inl ⟨line, h, rfl⟩
  | cons r t ih =>
    intro script line h
    rcases ih (applyRule script r) line h with ⟨orig, horig, heq⟩ | ⟨r', hr', rest⟩
    · rcases foldl_applyOne_line_origin r.pairs script orig horig with
        ⟨o₂, ho₂, he₂⟩ | ⟨pr, hpr, c, hc, c₀, hc₀, he₂⟩
      · exact Or.inl ⟨o₂, ho₂, heq.trans he₂⟩
      · exact Or.inr ⟨r, List.mem_cons_self r t, pr, hpr, c, hc, c₀, hc₀,
          heq.trans he₂⟩
    · exact Or.inr ⟨r', List.mem_cons_of_mem r hr', rest⟩

/-- C4 fails as stated: applying the shipped benchmark rule (whose
`indent_inference_line` directive re-indents the inference line) removes the
original inference line text from the output, so not every line of the
original script appears unchanged. -/
theorem patch_not_insertion_only :
    "output = model(input)" ∈ inferScript ∧
      "output = model(input)" ∉ applyPatch [srBenchmark] inferScript := by
  decide

/-- C4 (amended): every line of the original script appears in the output in
its original relative order up to re-indentation; when no rule carries an
`indent_inference_line` directive the original lines appear entirely
unchanged; every inserted content block — of a below, an above, or a
two-anchor insertion entry — consists of the block's lines indented to match
the anchor line; and at the whole-patch-plan level every output line is, up
to leading whitespace, an original script line or a content line of one of
the applied rules. The patcher is a pure function producing a new script
text. -/
theorem patch_insertion_only :
    (∀ (rules : List Rule) (script : List String),
        (script.map stripIndent).Sublist ((applyPatch rules script).map stripIndent)) ∧
      (∀ (rules : List Rule) (script : List String), (rules.all ruleNoIndent) = true →
        script.Sublist (applyPatch rules script)) ∧
      (∀ (script : List String) (k : AnchorKind) (c : List String) (i : Nat),
        detect script k = some i →
        ∀ line ∈ applyOne script (Loc.below k, Content.block c),
          line ∈ script ∨
            ∃ c₀ ∈ c, line = withIndent (indentOf (script.getD i "")) c₀) ∧
      (∀ (script : List String) (k : AnchorKind) (c : List String) (i : Nat),
        detect script k = some i →
        ∀ line ∈ applyOne script (Loc.above k, Content.block c),
          line ∈ script ∨
            ∃ c₀ ∈ c, line = withIndent (indentOf (script.getD i "")) c₀) ∧
      (∀ (script : List String) (k₁ k₂ : AnchorKind) (c : List String) (i j : Nat),
        detect script k₁ = some i → detect script k₂ = some j →
        ∀ line ∈ applyOne script (Loc.belowBoth k₁ k₂, Content.block c),
          line ∈ script ∨
            ∃ c₀ ∈ c, line = withIndent (indentOf (script.getD (max i j) "")) c₀) ∧
      (∀ (rules : List Rule) (script : List String),
        ∀ line ∈ applyPatch rules script,
          (∃ orig ∈ script, stripIndent line = stripIndent orig) ∨
            ∃ r ∈ rules, ∃ pr ∈ r.pairs, ∃ c, pr.2 = Content.block c ∧
              ∃ c₀ ∈ c, stripIndent line = stripIndent c₀) := by
  refine ⟨?_, ?_, ?_, ?_, ?_, ?_⟩
  · intro rules script
    unfold applyPatch run
    cases horder : order rules with
    | error e => exact List.Sublist.refl _
    | ok L => exact applyRules_strip_sublist L script
  · intro rules script h
    unfold applyPatch run
    cases horder : order rules with
    | error e => exact List.Sublist.refl _
    | ok L =>
      refine applyRules_sublist_of_noIndent L script ?_
      rw [List.all_eq_true] at h ⊢
      intro r hr
      exact h r (order_subset horder r hr)
  · intro script k c i hd line hline
    simp only [applyOne, hd] at hline
    exact mem_insertAfterLine hline
  · intro script k c i hd line hline
    simp only [applyOne, hd] at hline
    exact mem_insertBeforeLine hline
  · intro script k₁ k₂ c i j hd1 hd2 line hline
    simp only [applyOne, hd1, hd2] at hline
    exact mem_insertAfterLine hline
  · intro rules script line hline
    unfold applyPatch run at hline
    cases horder : order rules with
    | error e =>
      rw [horder] at hline
      exact Or.inl ⟨line, hline, rfl⟩
    | ok L =>
      rw [horder] at hline
      rcases applyRules_line_origin L script line hline with h | ⟨r, hr, rest⟩
      · exact Or.inl h
      · exact Or.inr ⟨r, order_subset horder r hr, rest⟩

/-- Witness for the amended insertion-only property at concrete rule sets
and scripts: the stripped original line survives, the original line survives
unchanged for an indentation-free rule set, a below insertion, an above
insertion and a two-anchor insertion each produce only original lines or
content lines indented like their anchor, and every line of a full patch
output traces back to the script or to a rule's content block. -/
theorem patch_insertion_only_witness :
    (demoModelScript.map stripIndent).Sublist
        ((applyPatch [demoInsertRule] demoModelScript).map stripIndent) ∧
      demoModelScript.Sublist (applyPatch [demoInsertRule] demoModelScript) ∧
      (∀ line ∈ applyOne demoModelScript
          (Loc.below AnchorKind.modelDef, Content.block ["import torch"]),
        line ∈ demoModelScript ∨
          ∃ c₀ ∈ ["import torch"],
            line = withIndent (indentOf (demoModelScript.getD 0 "")) c₀) ∧
      (∀ line ∈ applyOne inferScript
          (Loc.above AnchorKind.inference, Content.block ["import time"]),
        line ∈ inferScript ∨
          ∃ c₀ ∈ ["import time"],
            line = withIndent (indentOf (inferScript.getD 0 "")) c₀) ∧
      (∀ line ∈ applyOne modelInputScript
          (Loc.belowBoth AnchorKind.modelDef AnchorKind.inputDef,
            Content.block ["import torch"]),
        line ∈ modelInputScript ∨
          ∃ c₀ ∈ ["import torch"],
            line = withIndent (indentOf (modelInputScript.getD (max 0 1) "")) c₀) ∧
      (∀ line ∈ applyPatch [demoInsertRule] demoModelScript,
        (∃ orig ∈ demoModelScript, stripIndent line = stripIndent orig) ∨
          ∃ r ∈ [demoInsertRule], ∃ pr ∈ r.pairs, ∃ c, pr.2 = Content.block c ∧
            ∃ c₀ ∈ c, stripIndent line = stripIndent c₀) :=
  ⟨patch_insertion_only.1 [demoInsertRule] demoModelScript,
   patch_insertion_only.2.1 [demoInsertRule] demoModelScript (by decide),
   patch_insertion_only.2.2.1 demoModelScript AnchorKind.modelDef ["import torch"] 0
     (by decide),
   patch_insertion_only.2.2.2.1 inferScript AnchorKind.inference ["import time"] 0
     (by decide),
   patch_insertion_only.2.2.2.2.1 modelInputScript AnchorKind.modelDef
     AnchorKind.inputDef ["import torch"] 0 1 (by decide) (by decide),
   patch_insertion_only.2.2.2.2.2 [demoInsertRule] demoModelScript⟩

/-- C5: a rule all of whose anchor kinds are absent from the target script
performs no insertion at all (the script is returned unchanged for that
rule), and a run whose ordering succeeds completes without raising any
error, whether or not anchors were found: anchor absence is a soft skip. -/
theorem absent_anchor_soft_skip :
    (∀ (script : List String) (r : Rule),
        (∀ pr ∈ r.pairs, ∀ k ∈ pr.1.anchorKinds, detect script k = none) →
        applyRule script r = script) ∧
      (∀ (rules : List Rule) (script : List String) (sorted : List Rule),
        order rules = Except.ok sorted →
        run rules script = Except.ok (sorted.foldl applyRule script)) := by
  constructor
  · intro script r h
    exact foldl_applyOne_skip r.pairs script h
  · intro rules script sorted h
    simp [run, h]

/-- Witness for the soft-skip property: the demonstration rule anchored at
the absent dataloader definition line leaves the plain script unchanged, and
its run completes without error. -/
theorem absent_anchor_soft_skip_witness :
    applyRule plainScript skipRule = plainScript ∧
      run [skipRule] plainScript =
        Except.ok ([skipRule].foldl applyRule plainScript) :=
  ⟨absent_anchor_soft_skip.1 plainScript skipRule (by decide),
   absent_anchor_soft_skip.2 [skipRule] plainScript [skipRule] (by rfl)⟩

/-- C6: the rule loader fails with `ConfigError` exactly when the location
field is missing, the content field is missing, or some content block uses a
placeholder token outside the known token set; and every shipped rule file
loads without `ConfigError`. -/
theorem loader_config_error :
    (∀ raw : RawRule,
        loadRule raw = Except.error NCError.ConfigError ↔
          (raw.location = none ∨ raw.content = none ∨
            ∃ blocks, raw.content = some blocks ∧ contentHasUnknown blocks = true)) ∧
      shippedRaws.all (fun r => (loadRule r).isOk) = true := by
  constructor
  · intro raw
    rcases hloc : raw.location with _ | loc
    · simp [loadRule, hloc]
    · rcases hcont : raw.content with _ | cont
      · simp [loadRule, hloc, hcont]
      · by_cases hbad : contentHasUnknown cont = true
        · simp [loadRule, hloc, hcont, hbad]
        · simp only [loadRule, hloc, hcont, hbad, if_false, Bool.false_eq_true]
          constructor
          · intro h
            exact absurd h (by simp)
          · intro h
            rcases h with h | h | ⟨blocks, hb, hu⟩
            · exact absurd h (by simp)
            · exact absurd h (by simp)
            · obtain rfl := Option.some.inj hb
              exact absurd hu hbad
  · decide

theorem topoGo_sound :
    ∀ (fuel : Nat) (acc pending L : List Rule),
      topoGo fuel acc pending = Except.ok L →
      (∀ a ∈ acc, ∀ p ∈ pending, isPredB p a = false) →
      List.Pairwise (fun a b => isPredB b a = false) acc.reverse →
      L.Perm (acc.reverse ++ pending) ∧
        List.Pairwise (fun a b => isPredB b a = false) L := by
  intro fuel
  induction fuel with
  | zero =>
    intro acc pending L h hcross hacc
    cases pending with
    | nil =>
      simp only [topoGo, Except.ok.injEq] at h
      subst h
      exact ⟨by simp, hacc⟩
    | cons r₀ rest => simp [topoGo] at h
  | succ fuel ih =>
    intro acc pending L h hcross hacc
    cases pending with
    | nil =>
      simp only [topoGo, Except.ok.injEq] at h
      subst h
      exact ⟨by simp, hacc⟩
    | cons r₀ rest =>
      rw [topoGo] at h
      cases hfind : (r₀ :: rest).find? (readyB (r₀ :: rest)) with
      | none => rw [hfind] at h; simp at h
      | some r =>
        rw [hfind] at h
        have hrmem : r ∈ r₀ :: rest := List.mem_of_find?_eq_some hfind
        have hready : readyB (r₀ :: rest) r = true := List.find?_some hfind
        have hready' : ∀ u ∈ r₀ :: rest, isPredB u r = false := by
          intro u hu
          have hu' := (List.all_eq_true.1 hready) u hu
          simpa using hu'
        have hcross' : ∀ a ∈ r :: acc, ∀ p ∈ (r₀ :: rest).erase r,
            isPredB p a = false := by
          intro a ha p hp
          have hpmem : p ∈ r₀ :: rest := List.mem_of_mem_erase hp
          rcases List.mem_cons.1 ha with rfl | ha'
          · exact hready' p hpmem
          · exact hcross a ha' p hpmem
        have hacc' : List.Pairwise (fun a b => isPredB b a = false)
            (r :: acc).reverse := by
          rw [List.reverse_cons, List.pairwise_append]
          refine ⟨hacc, List.pairwise_singleton _ _, ?_⟩
          intro a ha b hb
          have hb' : b = r := List.mem_singleton.1 hb
          rw [hb']
          exact hcross a (by simpa using ha) r hrmem
        obtain ⟨hperm, hpw⟩ := ih (r :: acc) ((r₀ :: rest).erase r) L h hcross' hacc'
        refine ⟨hperm.trans ?_, hpw⟩
        rw [List.reverse_cons, List.append_assoc]
        exact List.Perm.append_left _ ((List.perm_cons_erase hrmem).symm)

theorem order_sound {active L : List Rule} (h : order active = Except.ok L) :
    L.Perm active ∧ List.Pairwise (fun a b => isPredB b a = false) L := by
  have hs := topoGo_sound active.length [] active L h (by simp) (by simp)
  simpa using hs

theorem topoGo_ok_or_error :
    ∀ (fuel : Nat) (acc pending : List Rule),
      (∃ L, topoGo fuel acc pending = Except.ok L) ∨
        topoGo fuel acc pending = Except.error NCError.OrderingError := by
  intro fuel
  induction fuel with
  | zero =>
    intro acc pending
    cases pending with
    | nil => exact Or.inl ⟨acc.reverse, rfl⟩
    | cons r₀ rest => exact Or.inr rfl
  | succ fuel ih =>
    intro acc pending
    cases pending with
    | nil => exact Or.inl ⟨acc.reverse, rfl⟩
    | cons r₀ rest =>
      cases hfind : (r₀ :: rest).find? (readyB (r₀ :: rest)) with
      | none =>
        right
        rw [topoGo, hfind]
      | some r =>
        rcases ih (r :: acc) ((r₀ :: rest).erase r) with ⟨L, hL⟩ | herr
        · exact Or.inl ⟨L, by rw [topoGo, hfind]; exact hL⟩
        · exact Or.inr (by rw [topoGo, hfind]; exact herr)

theorem pathStep_mem_left {active : List Rule} {u v : Rule}
    (h : PathStep active u v) : u ∈ active := by
  cases h with
  | single hu _ _ => exact hu
  | cons hu _ _ => exact hu

theorem pairwise_indexOf_lt {L : List Rule}
    (hpw : List.Pairwise (fun a b => isPredB b a = false) L)
    {u v : Rule} (hu : u ∈ L) (hv : v ∈ L) (huv : isPredB u v = true) :
    L.indexOf u < L.indexOf v := by
  have hiu : L.indexOf u < L.length := List.indexOf_lt_length.2 hu
  have hiv : L.indexOf v < L.length := List.indexOf_lt_length.2 hv
  have hgu : L.get ⟨L.indexOf u, hiu⟩ = u := List.indexOf_get hiu
  have hgv : L.get ⟨L.indexOf v, hiv⟩ = v := List.indexOf_get hiv
  rcases Nat.lt_trichotomy (L.indexOf u) (L.indexOf v) with hlt | heq | hgt
  · exact hlt
  · exfalso
    have huv' : u = v := by
      rw [← hgu, ← hgv]
      exact congrArg L.get (Fin.ext heq)
    subst huv'
    simp [isPredB] at huv
  · exfalso
    have hp := List.pairwise_iff_get.1 hpw ⟨L.indexOf v, hiv⟩ ⟨L.indexOf u, hiu⟩
      (by exact hgt)
    rw [hgu, hgv] at hp
    rw [huv] at hp
    exact absurd hp (by simp)

theorem path_indexOf_lt {active L : List Rule} (hperm : L.Perm active)
    (hpw : List.Pairwise (fun a b => isPredB b a = false) L)
    {u v : Rule} (hp : PathStep active u v) :
    L.indexOf u < L.indexOf v := by
  induction hp with
  | single hu hv huv =>
    exact pairwise_indexOf_lt hpw (hperm.mem_iff.2 hu) (hperm.mem_iff.2 hv) huv
  | cons hu huw hwv ihw =>
    refine lt_trans ?_ ihw
    exact pairwise_indexOf_lt hpw (hperm.mem_iff.2 hu)
      (hperm.mem_iff.2 (pathStep_mem_left hwv)) huw

theorem order_ok_no_cycle {active L : List Rule}
    (h : order active = Except.ok L) : ¬ HasCycle active := by
  obtain ⟨hperm, hpw⟩ := order_sound h
  rintro ⟨u, hu⟩
  exact lt_irrefl _ (path_indexOf_lt hperm hpw hu)

/-- C2: when the below/above constraint graph of the active rule set
contains a cycle, the run fails with `OrderingError` and the whole patch is
aborted: the target script text is returned unchanged. -/
theorem cycle_ordering_error :
    ∀ (rules : List Rule) (script : List String), HasCycle rules →
      run rules script = Except.error NCError.OrderingError ∧
        applyPatch rules script = script := by
  intro rules script hcyc
  have herr : order rules = Except.error NCError.OrderingError := by
    rcases topoGo_ok_or_error rules.length [] rules with ⟨L, hL⟩ | herr
    · exact absurd hcyc (order_ok_no_cycle hL)
    · exact herr
  constructor
  · simp [run, herr]
  · simp [applyPatch, run, herr]

/-- Witness for the cycle-abort property: a concrete two-rule cycle makes the
run fail with `OrderingError` and leaves the script unchanged. -/
theorem cycle_ordering_error_witness :
    run [cycRuleA, cycRuleB] demoModelScript = Except.error NCError.OrderingError ∧
      applyPatch [cycRuleA, cycRuleB] demoModelScript = demoModelScript :=
  cycle_ordering_error [cycRuleA, cycRuleB] demoModelScript
    ⟨cycRuleA,
      @PathStep.cons [cycRuleA, cycRuleB] cycRuleA cycRuleB cycRuleA (by simp)
        (by decide)
        (@PathStep.single [cycRuleA, cycRuleB] cycRuleB cycRuleA (by simp)
          (by simp) (by decide))⟩

theorem pathStep_mono {l₁ l₂ : List Rule} (hsub : ∀ x ∈ l₁, x ∈ l₂)
    {u v : Rule} (h : PathStep l₁ u v) : PathStep l₂ u v := by
  induction h with
  | single hu hv huv => exact PathStep.single (hsub _ hu) (hsub _ hv) huv
  | cons hu huw _ ih => exact PathStep.cons (hsub _ hu) huw ih

theorem chain_head_path {l : List Rule} :
    ∀ (trail : List Rule) (r : Rule),
      List.Chain' (fun a b => isPredB a b = true) (r :: trail) →
      (∀ x ∈ r :: trail, x ∈ l) →
      ∀ x ∈ trail, PathStep l r x := by
  intro trail
  induction trail with
  | nil =>
    intro r _ _ x hx
    simp at hx
  | cons b t ih =>
    intro r hchain hsub x hx
    have hrb : isPredB r b = true := (List.chain'_cons.1 hchain).1
    rcases List.mem_cons.1 hx with rfl | hxt
    · exact PathStep.single (hsub r (by simp)) (hsub x (by simp)) hrb
    · have hbx : PathStep l b x :=
        ih b (List.chain'_cons.1 hchain).2
          (fun y hy => hsub y (List.mem_cons_of_mem r hy)) x hxt
      exact PathStep.cons (hsub r (by simp)) hrb hbx

theorem cycle_of_all_have_pred (l : List Rule) :
    ∀ (fuel : Nat) (trail : List Rule) (r : Rule),
      (∀ x ∈ l, ∃ u ∈ l, isPredB u x = true) →
      List.Chain' (fun a b => isPredB a b = true) (r :: trail) →
      (∀ x ∈ r :: trail, x ∈ l) →
      (r :: trail).Nodup →
      l.length + 1 ≤ fuel + (r :: trail).length →
      HasCycle l := by
  intro fuel
  induction fuel with
  | zero =>
    intro trail r _ _ hsub hnd hlen
    exfalso
    have hle : (r :: trail).length ≤ l.length :=
      (List.Nodup.subperm hnd (fun x hx => hsub x hx)).length_le
    omega
  | succ fuel ih =>
    intro trail r hAll hchain hsub hnd hlen
    obtain ⟨u, hul, hur⟩ := hAll r (hsub r (by simp))
    by_cases hmem : u ∈ r :: trail
    · rcases List.mem_cons.1 hmem with rfl | hut
      · exfalso
        simp [isPredB] at hur
      · have hpath : PathStep l r u := chain_head_path trail r hchain hsub u hut
        exact ⟨u, PathStep.cons hul hur hpath⟩
    · refine ih (r :: trail) u hAll ?_ ?_ ?_ ?_
      · exact List.chain'_cons.2 ⟨hur, hchain⟩
      · intro x hx
        rcases List.mem_cons.1 hx with rfl | hx'
        · exact hul
        · exact hsub x hx'
      · exact List.nodup_cons.2 ⟨hmem, hnd⟩
      · simp only [List.length_cons] at hlen ⊢
        omega

theorem no_cycle_exists_ready (pending : List Rule) (hne : pending ≠ [])
    (hnc : ¬ HasCycle pending) :
    ∃ r ∈ pending, readyB pending r = true := by
  by_contra hno
  push_neg at hno
  have hAll : ∀ x ∈ pending, ∃ u ∈ pending, isPredB u x = true := by
    intro x hx
    have hnr := hno x hx
    by_contra hnou
    push_neg at hnou
    apply hnr
    rw [readyB, List.all_eq_true]
    intro u hu
    cases hval : isPredB u x with
    | false => simp
    | true => exact absurd hval (hnou u hu)
  cases pending with
  | nil => exact hne rfl
  | cons r₀ rest =>
    apply hnc
    refine cycle_of_all_have_pred (r₀ :: rest) (r₀ :: rest).length [] r₀ hAll ?_ ?_ ?_ ?_
    · exact List.chain'_singleton r₀
    · intro x hx
      have hx' : x = r₀ := by simpa using hx
      rw [hx']
      simp
    · simp
    · simp

theorem topoGo_complete :
    ∀ (fuel : Nat) (acc pending : List Rule),
      pending.length ≤ fuel →
      ¬ HasCycle pending →
      ∃ L, topoGo fuel acc pending = Except.ok L := by
  intro fuel
  induction fuel with
  | zero =>
    intro acc pending hlen _
    cases pending with
    | nil => exact ⟨acc.reverse, rfl⟩
    | cons r₀ rest => simp at hlen
  | succ fuel ih =>
    intro acc pending hlen hnc
    cases pending with
    | nil => exact ⟨acc.reverse, rfl⟩
    | cons r₀ rest =>
      obtain ⟨r, hrmem, hready⟩ := no_cycle_exists_ready (r₀ :: rest) (by simp) hnc
      cases hfind : (r₀ :: rest).find? (readyB (r₀ :: rest)) with
      | none =>
        exfalso
        exact absurd hready (by simpa using (List.find?_eq_none.1 hfind) r hrmem)
      | some r' =>
        have hr'mem : r' ∈ r₀ :: rest := List.mem_of_find?_eq_some hfind
        have hlen' : ((r₀ :: rest).erase r').length ≤ fuel := by
          rw [List.length_erase_of_mem hr'mem]
          simp only [List.length_cons] at hlen ⊢
          omega
        have hnc' : ¬ HasCycle ((r₀ :: rest).erase r') := by
          rintro ⟨u, hu⟩
          exact hnc ⟨u, pathStep_mono (fun x hx => List.mem_of_mem_erase hx) hu⟩
        obtain ⟨L, hL⟩ := ih (r' :: acc) ((r₀ :: rest).erase r') hlen' hnc'
        exact ⟨L, by rw [topoGo, hfind]; exact hL⟩

theorem order_complete {active : List Rule} (hnc : ¬ HasCycle active) :
    ∃ L, order active = Except.ok L :=
  topoGo_complete active.length [] active (le_refl _) hnc

theorem path_rank_lt {active : List Rule} (f : String → Nat)
    (hf : ∀ u ∈ active, ∀ v ∈ active, isPredB u v = true → f u.name < f v.name)
    {u v : Rule} (h : PathStep active u v) : f u.name < f v.name := by
  induction h with
  | single hu hv huv => exact hf _ hu _ hv huv
  | cons hu huw hwv ih =>
    exact lt_trans (hf _ hu _ (pathStep_mem_left hwv) huw) ih

theorem rank_no_cycle {active : List Rule} (f : String → Nat)
    (hf : ∀ u ∈ active, ∀ v ∈ active, isPredB u v = true → f u.name < f v.name) :
    ¬ HasCycle active := by
  rintro ⟨u, hu⟩
  exact lt_irrefl _ (path_rank_lt f hf hu)

/-- C1: for every active rule set whose constraint graph is acyclic the
ordering resolver succeeds and returns a total order of exactly those rules
in which every declared below/above constraint is satisfied (no rule is
followed by one of its predecessors); in particular, for the three-rule
example with A above B and B above C, the resolver returns A, B, C for every
input declaration order. -/
theorem order_total_of_acyclic :
    (∀ active : List Rule, ¬ HasCycle active →
        ∃ L, order active = Except.ok L ∧ L.Perm active ∧
          List.Pairwise (fun a b => isPredB b a = false) L) ∧
      ∀ p ∈ abcOrders, p.Perm abcRules ∧ order p = Except.ok abcRules := by
  constructor
  · intro active hnc
    obtain ⟨L, hL⟩ := order_complete hnc
    obtain ⟨hperm, hpw⟩ := order_sound hL
    exact ⟨L, hL, hperm, hpw⟩
  · decide

/-- Witness for the acyclic-ordering property: the three-rule example set is
acyclic (it admits a rank function) and the resolver returns a constraint-
respecting total order of it. -/
theorem order_total_of_acyclic_witness :
    ∃ L, order abcRules = Except.ok L ∧ L.Perm abcRules ∧
      List.Pairwise (fun a b => isPredB b a = false) L :=
  order_total_of_acyclic.1 abcRules (rank_no_cycle abcRank (by decide))

theorem no_path_of_no_out_edge {active : List Rule} {u : Rule}
    (h : ∀ w ∈ active, isPredB u w = false) {v : Rule} :
    ¬ PathStep active u v := by
  intro hp
  cases hp with
  | single hu hv huv =>
    rw [h v hv] at huv
    exact absurd huv (by simp)
  | cons hu huw hwv =>
    rw [h _ (pathStep_mem_left hwv)] at huw
    exact absurd huw (by simp)

/-- C8 fails as stated: in the three-rule set P, Q, R (declared in that
order) whose only constraint is that R must precede P, the rules P and Q are
unordered by the constraint graph (no directed path either way), yet the
resolver emits Q before P, not in declaration order: the declaration-order
tie-break applies only among the rules simultaneously ready during the
topological sort. -/
theorem order_not_declaration_order :
    (¬ PathStep pqrRules ruleP ruleQ) ∧ (¬ PathStep pqrRules ruleQ ruleP) ∧
      order pqrRules = Except.ok [ruleQ, ruleR, ruleP] := by
  refine ⟨?_, ?_, ?_⟩
  · exact no_path_of_no_out_edge (by decide)
  · exact no_path_of_no_out_edge (by decide)
  · decide

/-- C8 (amended): the resolver is a deterministic function of the active
rule list, and the declaration order is preserved whenever the constraint
graph imposes nothing at all: a rule set with no constraints between any two
of its members is returned exactly in declaration order. -/
theorem order_no_constraints_id :
    ∀ active : List Rule,
      (∀ u ∈ active, ∀ v ∈ active, isPredB u v = false) →
      order active = Except.ok active := by
  have hgo : ∀ (pending : List Rule) (fuel : Nat) (acc : List Rule),
      pending.length ≤ fuel →
      (∀ u ∈ pending, ∀ v ∈ pending, isPredB u v = false) →
      topoGo fuel acc pending = Except.ok (acc.reverse ++ pending) := by
    intro pending
    induction pending with
    | nil =>
      intro fuel acc _ _
      cases fuel with
      | zero => simp [topoGo]
      | succ fuel => simp [topoGo]
    | cons r₀ rest ih =>
      intro fuel acc hlen hnone
      cases fuel with
      | zero => simp at hlen
      | succ fuel =>
        rw [topoGo]
        have hready : readyB (r₀ :: rest) r₀ = true := by
          rw [readyB, List.all_eq_true]
          intro u hu
          rw [hnone u hu r₀ (by simp)]
          rfl
        rw [List.find?_cons_of_pos _ hready]
        show topoGo fuel (r₀ :: acc) ((r₀ :: rest).erase r₀) =
          Except.ok (acc.reverse ++ r₀ :: rest)
        rw [List.erase_cons_head]
        rw [ih fuel (r₀ :: acc) (by simp only [List.length_cons] at hlen; omega)
          (fun u hu v hv =>
            hnone u (List.mem_cons_of_mem r₀ hu) v (List.mem_cons_of_mem r₀ hv))]
        rw [List.reverse_cons, List.append_assoc]
        rfl
  intro active h
  rw [order, hgo active active.length [] (le_refl _) h]
  rfl

/-- Witness for the amended declaration-order property: a two-rule set with
no constraints is returned in declaration order. -/
theorem order_no_constraints_id_witness :
    order [ruleP, ruleQ] = Except.ok [ruleP, ruleQ] :=
  order_no_constraints_id [ruleP, ruleQ] (by decide)

/-- C10: the order declarations of the six shipped rule documents are mutually
consistent (whenever two shipped rules each name the other, one declares
itself below exactly when the other declares itself above), and the
constraint graph over every subset of the shipped rules is acyclic, so every
shipped rule combination is ordered without `OrderingError`. -/
theorem shipped_rules_order_consistent :
    shippedRules.all (fun r => shippedRules.all (fun s => mutualConsistent r s)) = true ∧
      (∀ sub : List Rule, sub.Sublist shippedRules → ∃ L, order sub = Except.ok L) ∧
      (∀ sub : List Rule, sub.Sublist shippedRules → ¬ HasCycle sub) := by
  have hall : shippedRules.sublists.all (fun sub => (order sub).isOk) = true := by
    decide
  have hex : ∀ sub : List Rule, sub.Sublist shippedRules →
      ∃ L, order sub = Except.ok L := by
    intro sub hsub
    have hmem : sub ∈ shippedRules.sublists := List.mem_sublists.2 hsub
    have hok := List.all_eq_true.1 hall sub hmem
    cases horder : order sub with
    | ok L => exact ⟨L, rfl⟩
    | error e =>
      rw [horder] at hok
      simp [Except.isOk, Except.toBool] at hok
  refine ⟨by decide, hex, ?_⟩
  intro sub hsub
  obtain ⟨L, hL⟩ := hex sub hsub
  exact order_ok_no_cycle hL

/-- Witness for the shipped-rules ordering property: the full shipped rule
set itself is ordered without error and its constraint graph is acyclic. -/
theorem shipped_rules_order_consistent_witness :
    (∃ L, order shippedRules = Except.ok L) ∧ ¬ HasCycle shippedRules :=
  ⟨shipped_rules_order_consistent.2.1 shippedRules (List.Sublist.refl _),
   shipped_rules_order_consistent.2.2 shippedRules (List.Sublist.refl _)⟩

end NeuralCoder
